import Mathlib

/-!
Verification of `selene_sdk/predict/model_predict.py`: the variant-window
resolver, the in-silico-mutagenesis enumerator and applier, the window
geometry, the reference-consistency checkers, the FASTA prediction loop and
the variant-effect-prediction loop are translated into executable Lean
definitions, and the specification's testable properties are settled
against them.

Sequences are lists of characters, genomic coordinates are integers, and
one-hot encodings are lists of rows.  Python slice semantics (including
negative indices and clamping) are modelled explicitly because the source
relies on them.
-/

namespace Selene

/-- Clamp a Python slice index for a list of length `n`: negative indices
count from the end, and out-of-range indices are clamped to `[0, n]`. -/
def pyBound (n : Nat) (i : Int) : Nat :=
  if i < 0 then ((n : Int) + i).toNat
  else if i.toNat ≤ n then i.toNat else n

/-- Python `s[:b]`. -/
def pySliceTo {α : Type} (s : List α) (b : Int) : List α :=
  s.take (pyBound s.length b)

/-- Python `s[a:]`. -/
def pySliceFrom {α : Type} (s : List α) (a : Int) : List α :=
  s.drop (pyBound s.length a)

/-- Python `s[a:b]`. -/
def pySlice {α : Type} (s : List α) (a b : Int) : List α :=
  (s.take (pyBound s.length b)).drop (pyBound s.length a)

/-- Python `math.ceil(n / 2)` for a nonnegative integer `n`. -/
def myCeil2 (n : Nat) : Nat := (n + 1) / 2

/-- A reference genome: an association list from chromosome name to the
chromosome's base sequence (0-based coordinates). -/
abbrev Str := List Char
abbrev RefGenome := List (Str × Str)

/-- Look up a chromosome's sequence by name. -/
def chromSeq (g : RefGenome) (c : Str) : Option Str :=
  (g.find? (fun p => decide (p.1 = c))).map (fun p => p.2)

/-- Modelled from the spec: `get_sequence_from_coords` of the
reference-sequence collaborator (`selene_sdk.sequences.Genome`, whose file is
not under `src/`), described as "fetch(chrom,start,end[,pad])->sequence" with
"coordinate-bounded sequence retrieval" and "out-of-bounds padding permitted"
when `pad` is set.  Without padding an out-of-range request (or an unknown
chromosome) yields the empty sequence; with padding, out-of-range positions
are filled with the unknown symbol `N`. -/
def getSequenceFromCoords (g : RefGenome) (c : Str) (s e : Int)
    (pad : Bool) : Str :=
  match chromSeq g c with
  | none => []
  | some cs =>
      if pad then
        (List.range (e - s).toNat).map (fun (i : Nat) =>
          if 0 ≤ s + (i : Int) ∧ s + (i : Int) < (cs.length : Int) then
            cs.getD (s + (i : Int)).toNat 'N'
          else 'N')
      else
        if 0 ≤ s ∧ s ≤ e ∧ e ≤ (cs.length : Int) then
          (cs.drop s.toNat).take (e - s).toNat
        else []

/-- Modelled from the spec: `coords_in_bounds` of the reference-sequence
collaborator ("in_bounds(chrom,start,end)->bool"; a window "falls outside
available reference coordinates or its chromosome is absent" exactly when
this is false). -/
def coordsInBounds (g : RefGenome) (c : Str) (s e : Int) : Bool :=
  match chromSeq g c with
  | none => false
  | some cs => decide (0 ≤ s ∧ e ≤ (cs.length : Int) ∧ s < e)

/-- The condition under which an unpadded `getSequenceFromCoords` returns the
requested slice (rather than the empty sequence). -/
def fetchOk (g : RefGenome) (c : Str) (s e : Int) : Bool :=
  match chromSeq g c with
  | none => false
  | some cs => decide (0 ≤ s ∧ s ≤ e ∧ e ≤ (cs.length : Int))

/-- The `*` alternate allele denotes a pure deletion and is normalized to the
empty string (`_process_alts`, loop head). -/
def normAlt (a : Str) : Str := if a = ['*'] then [] else a

/-- One alternate-allele window of `AnalyzeSequences._process_alts`
(src lines 786-823), before one-hot encoding: substitution, deletion and
insertion branches with their flank fetches and splices. -/
def processAlt (g : RefGenome) (sr er : Nat) (chrom : Str)
    (pos : Int) (ref : Str) (refSeqCenter : Int) (a0 : Str) : Str :=
  let a := normAlt a0
  let refLen := ref.length
  let altLen := a.length
  if refLen = altLen then
    let s := getSequenceFromCoords g chrom (refSeqCenter - sr)
      (refSeqCenter + er) false
    let removeRefStart : Int := (sr : Int) - ((refLen / 2 : Nat) : Int)
    pySliceTo s removeRefStart ++ a ++
      pySliceFrom s (removeRefStart + refLen)
  else if altLen < refLen then
    getSequenceFromCoords g chrom (pos - sr)
        (pos - ((altLen / 2 : Nat) : Int)) false ++ a ++
      getSequenceFromCoords g chrom (pos + refLen)
        (pos + refLen + er - myCeil2 altLen) true
  else
    getSequenceFromCoords g chrom (pos - sr)
        (pos - ((altLen / 2 : Nat) : Int)) false ++ a ++
      getSequenceFromCoords g chrom (pos + myCeil2 altLen) (pos + er) false

example :
    processAlt [(['c'], List.replicate 20 'A')] 2 3 ['c'] 10
      (List.replicate 6 'A') 12 (List.replicate 6 'C') =
      ('A' :: 'A' :: 'A' :: 'A' :: List.replicate 6 'C') := by decide

example :
    processAlt [(['c'], List.replicate 20 'A')] 2 3 ['c'] 10
      ['A', 'T', 'G'] 11 ['A'] = ['A', 'A', 'A', 'A', 'A'] := by decide

/-- The window as claim C2 words it for an insertion: left flank from
`pos - start_radius` up to `pos - floor(alt_len/2)`, then the alternate
allele, then a right flank starting at `pos + ceil(alt_len/2)` and spanning
`end_radius` bases. -/
def insertionWindowClaim (g : RefGenome) (sr er : Nat) (chrom : Str)
    (pos : Int) (a0 : Str) : Str :=
  let a := normAlt a0
  let altLen := a.length
  getSequenceFromCoords g chrom (pos - sr)
      (pos - ((altLen / 2 : Nat) : Int)) false ++ a ++
    getSequenceFromCoords g chrom (pos + myCeil2 altLen)
      (pos + myCeil2 altLen + er) false

/-- Window geometry of `AnalyzeSequences.__init__` (src lines 302-305):
`_start_radius = int(sequence_length / 2)`. -/
def startRadius (seqLen : Nat) : Nat := seqLen / 2

/-- Window geometry of `AnalyzeSequences.__init__` (src lines 302-305):
`_end_radius` equals `_start_radius`, incremented when the length is odd. -/
def endRadius (seqLen : Nat) : Nat :=
  if seqLen % 2 ≠ 0 then seqLen / 2 + 1 else seqLen / 2

/-- Per-position alternate bases of `in_silico_mutagenesis_sequences`
(src lines 66-73): for each reference base, every alphabet base different
from it, in alphabet order. -/
def sequenceAlts (alphabet : List Char) (s : Str) : List (List Char) :=
  s.map (fun ref => alphabet.filter (fun b => decide (b ≠ ref)))

/-- `itertools.combinations` over a list: all sorted `k`-element
subsequences, in the order Python produces them. -/
def combinations {α : Type} : Nat → List α → List (List α)
  | 0, _ => [[]]
  | _ + 1, [] => []
  | k + 1, x :: xs =>
      (combinations k xs).map (fun c => x :: c) ++ combinations (k + 1) xs

/-- `itertools.product` over a list of lists, first factor outermost. -/
def listProd {α : Type} : List (List α) → List (List α)
  | [] => [[]]
  | l :: ls => l.bind (fun x => (listProd ls).map (fun c => x :: c))

/-- `in_silico_mutagenesis_sequences` (src lines 31-82): all mutation sets
obtained by choosing `mutateNBases` positions (ascending combinations) and,
per chosen position, an alternate base. -/
def inSilicoMutagenesisSequences (alphabet : List Char) (s : Str)
    (mutateNBases : Nat) : List (List (Nat × Char)) :=
  let alts := sequenceAlts alphabet s
  (combinations mutateNBases (List.range s.length)).bind (fun indices =>
    (listProd (indices.map (fun i => alts.getD i []))).map
      (fun ms => indices.zip ms))

example :
    inSilicoMutagenesisSequences ['A', 'C', 'G', 'T'] ['A', 'C'] 1 =
      [[(0, 'C')], [(0, 'G')], [(0, 'T')], [(1, 'A')], [(1, 'G')],
        [(1, 'T')]] := by decide

/-- `mutate_sequence` (src lines 112-145): starting from a copy of the
encoding, each `(position, alt)` pair zeroes the row at `position` and sets
a 1 at the alphabet index of `alt`. -/
def mutateSequence (baseToIndex : Char → Nat)
    (encoding : List (List Nat)) (muts : List (Nat × Char)) :
    List (List Nat) :=
  muts.foldl (fun acc pm =>
    acc.set pm.1
      ((List.replicate (acc.getD pm.1 []).length 0).set
        (baseToIndex pm.2) 1)) encoding

/-- Padding and centering of `in_silico_mutagenesis` (src lines 600-613):
short sequences are padded with the unknown base (extra base on the right),
long ones are center-truncated, and the result is uppercased. -/
def ismPrepareSequence (unk : Char) (seqLen : Nat) (s : Str) : Str :=
  let n := s.length
  let s1 :=
    if n < seqLen then
      let padL := (seqLen - n) / 2
      let padR := seqLen - n - padL
      List.replicate padL unk ++ s ++ List.replicate padR unk
    else if seqLen < n then
      let start := (n - seqLen) / 2
      (s.drop start).take seqLen
    else s
  s1.map Char.toUpper

/-- The mutation sets enumerated by `AnalyzeSequences.in_silico_mutagenesis`
(src lines 600-616): the sequence is padded/truncated to the model length
and then `in_silico_mutagenesis_sequences` is invoked with the literal
argument `mutate_n_bases=1` (src line 615), not with the caller's value. -/
def inSilicoMutagenesisEnumeration (alphabet : List Char) (unk : Char)
    (seqLen : Nat) (s : Str) (mutateNBases : Nat) :
    List (List (Nat × Char)) :=
  inSilicoMutagenesisSequences alphabet (ismPrepareSequence unk seqLen s) 1

/-! Length lemmas for the genome fetches and Python slices. -/

theorem chromSeq_of_fetchOk {g : RefGenome} {c : Str} {s e : Int}
    (h : fetchOk g c s e = true) : ∃ cs, chromSeq g c = some cs := by
  unfold fetchOk at h
  cases hcs : chromSeq g c with
  | none => rw [hcs] at h; cases h
  | some cs => exact ⟨cs, rfl⟩

theorem fetchOk_bounds {g : RefGenome} {c : Str} {s e : Int} {cs : Str}
    (h : fetchOk g c s e = true) (hcs : chromSeq g c = some cs) :
    0 ≤ s ∧ s ≤ e ∧ e ≤ (cs.length : Int) := by
  unfold fetchOk at h
  rw [hcs] at h
  exact of_decide_eq_true h

theorem length_fetch {g : RefGenome} {c : Str} {s e : Int}
    (h : fetchOk g c s e = true) :
    (getSequenceFromCoords g c s e false).length = (e - s).toNat := by
  obtain ⟨cs, hcs⟩ := chromSeq_of_fetchOk h
  obtain ⟨h0, h1, h2⟩ := fetchOk_bounds h hcs
  unfold getSequenceFromCoords
  rw [hcs]
  simp only [if_neg (Bool.false_ne_true), Bool.false_eq_true, if_false]
  rw [if_pos ⟨h0, h1, h2⟩]
  simp only [List.length_take, List.length_drop]
  omega

theorem length_fetch_pad {g : RefGenome} {c : Str} {s e : Int} {cs : Str}
    (hcs : chromSeq g c = some cs) :
    (getSequenceFromCoords g c s e true).length = (e - s).toNat := by
  unfold getSequenceFromCoords
  rw [hcs]
  show (List.map _ (List.range (e - s).toNat)).length = (e - s).toNat
  rw [List.length_map, List.length_range]

theorem length_pySliceTo {α : Type} (s : List α) (b : Int) (h0 : 0 ≤ b)
    (h1 : b ≤ (s.length : Int)) :
    (pySliceTo s b).length = b.toNat := by
  unfold pySliceTo pyBound
  rw [List.length_take, Nat.min_def]
  split_ifs <;> omega

theorem length_pySliceFrom {α : Type} (s : List α) (a : Int) (h0 : 0 ≤ a)
    (h1 : a ≤ (s.length : Int)) :
    (pySliceFrom s a).length = s.length - a.toNat := by
  unfold pySliceFrom pyBound
  rw [List.length_drop]
  split_ifs <;> omega

/-! Branch lemmas for `processAlt`. -/

theorem processAlt_substitution {g : RefGenome} {sr er : Nat} {chrom : Str}
    {pos : Int} {ref a0 : Str} {center : Int}
    (h : ref.length = (normAlt a0).length) :
    processAlt g sr er chrom pos ref center a0 =
      pySliceTo
          (getSequenceFromCoords g chrom (center - sr) (center + er) false)
          ((sr : Int) - ((ref.length / 2 : Nat) : Int)) ++
        normAlt a0 ++
        pySliceFrom
          (getSequenceFromCoords g chrom (center - sr) (center + er) false)
          ((sr : Int) - ((ref.length / 2 : Nat) : Int) + ref.length) := by
  simp [processAlt, h]

theorem processAlt_deletion {g : RefGenome} {sr er : Nat} {chrom : Str}
    {pos : Int} {ref a0 : Str} {center : Int}
    (h : (normAlt a0).length < ref.length) :
    processAlt g sr er chrom pos ref center a0 =
      getSequenceFromCoords g chrom (pos - sr)
          (pos - (((normAlt a0).length / 2 : Nat) : Int)) false ++
        normAlt a0 ++
        getSequenceFromCoords g chrom (pos + ref.length)
          (pos + ref.length + er - myCeil2 (normAlt a0).length) true := by
  have hne : ¬ (ref.length = (normAlt a0).length) := by omega
  simp [processAlt, hne, h]

theorem processAlt_insertion {g : RefGenome} {sr er : Nat} {chrom : Str}
    {pos : Int} {ref a0 : Str} {center : Int}
    (h : ref.length < (normAlt a0).length) :
    processAlt g sr er chrom pos ref center a0 =
      getSequenceFromCoords g chrom (pos - sr)
          (pos - (((normAlt a0).length / 2 : Nat) : Int)) false ++
        normAlt a0 ++
        getSequenceFromCoords g chrom
          (pos + myCeil2 (normAlt a0).length) (pos + er) false := by
  have hne : ¬ (ref.length = (normAlt a0).length) := by omega
  have hnlt : ¬ ((normAlt a0).length < ref.length) := by omega
  simp [processAlt, hne, hnlt]

/-- C2 counterexample: at chromosome `ACGTACGTACGT`, `sequence_length = 6`
(`start_radius = end_radius = 3`), `pos = 6`, `ref = "A"`, `alt = "ACG"`,
the window built by `_process_alts` differs from the construction the claim
describes (right flank starting at `pos + ceil(alt_len/2)` and spanning
`end_radius` bases); the claim's construction even violates its own
post-condition, having length 8 rather than `sequence_length = 6`. -/
theorem insertion_right_flank_cex :
    processAlt [(['c'], "ACGTACGTACGT".data)] (startRadius 6) (endRadius 6)
        ['c'] 6 ['A'] 5 "ACG".data ≠
      insertionWindowClaim [(['c'], "ACGTACGTACGT".data)] (startRadius 6)
        (endRadius 6) ['c'] 6 "ACG".data ∧
    (insertionWindowClaim [(['c'], "ACGTACGTACGT".data)] (startRadius 6)
        (endRadius 6) ['c'] 6 "ACG".data).length ≠ 6 := by
  constructor
  · decide
  · decide

/-- C2 (amended): for an insertion (`ref_len < alt_len`), `_process_alts`
builds the window as the left flank fetched from `pos - start_radius` up to
`pos - floor(alt_len/2)`, then the alternate allele, then a right flank from
`pos + ceil(alt_len/2)` up to `pos + end_radius` — thus spanning
`end_radius - ceil(alt_len/2)` bases (not `end_radius` bases), whenever that
right-flank fetch is within bounds. -/
theorem insertion_window_construction (g : RefGenome) (sr er : Nat)
    (chrom : Str) (pos : Int) (ref a0 : Str) (center : Int)
    (hins : ref.length < (normAlt a0).length)
    (hceil : myCeil2 (normAlt a0).length ≤ er)
    (hrhs : fetchOk g chrom (pos + myCeil2 (normAlt a0).length)
      (pos + er) = true) :
    processAlt g sr er chrom pos ref center a0 =
      getSequenceFromCoords g chrom (pos - sr)
          (pos - (((normAlt a0).length / 2 : Nat) : Int)) false ++
        normAlt a0 ++
        getSequenceFromCoords g chrom
          (pos + myCeil2 (normAlt a0).length) (pos + er) false ∧
    (getSequenceFromCoords g chrom (pos + myCeil2 (normAlt a0).length)
        (pos + er) false).length = er - myCeil2 (normAlt a0).length := by
  refine ⟨processAlt_insertion hins, ?_⟩
  rw [length_fetch hrhs]
  omega

/-- C2 witness: the amended insertion construction evaluated at the
counterexample's variant. -/
theorem insertion_window_construction_witness :
    processAlt [(['c'], "ACGTACGTACGT".data)] 3 3 ['c'] 6 ['A'] 5
        "ACG".data =
      getSequenceFromCoords [(['c'], "ACGTACGTACGT".data)] ['c'] 3 5
          false ++
        "ACG".data ++
        getSequenceFromCoords [(['c'], "ACGTACGTACGT".data)] ['c'] 8 9
          false ∧
    (getSequenceFromCoords [(['c'], "ACGTACGTACGT".data)] ['c'] 8 9
        false).length = 1 := by
  have h := insertion_window_construction [(['c'], "ACGTACGTACGT".data)]
    3 3 ['c'] 6 ['A'] "ACG".data 5 (by decide) (by decide) (by decide)
  exact ⟨h.1.trans (by decide), h.2.trans (by decide)⟩

/-- C3 counterexample: with `sequence_length = 5` (`start_radius = 2`,
`end_radius = 3`), a substitution variant whose alleles have length 6 at
`pos = 10` on a 20-base chromosome passes the reference-window bounds check
(`[10, 15)` is in bounds) yet `_process_alts` builds a sequence of length
10, so the branch assertion `len(sequence) == self.sequence_length`
fails. -/
theorem process_alts_length_cex :
    coordsInBounds [(['c'], List.replicate 20 'A')] ['c'] 10 15 = true ∧
    (processAlt [(['c'], List.replicate 20 'A')] (startRadius 5)
        (endRadius 5) ['c'] 10 (List.replicate 6 'A') 12
        (List.replicate 6 'C')).length = 10 := by
  constructor
  · decide
  · decide

/-- C3 (amended): the sequence `_process_alts` constructs has length exactly
`sequence_length`, provided additionally that the branch's allele fits the
radii (`floor(len/2) ≤ start_radius` and `ceil(len/2) ≤ end_radius`, with
`len` being the reference-allele length for a substitution and the
normalized alternate-allele length otherwise) and that the branch's
unpadded genome fetches are in bounds; the reference-centered window being
in bounds is not by itself sufficient. -/
theorem process_alts_window_length (g : RefGenome) (seqLen sr er : Nat)
    (chrom : Str) (pos : Int) (ref a0 : Str) (center : Int)
    (hsum : sr + er = seqLen)
    (hsub : ref.length = (normAlt a0).length →
      ref.length / 2 ≤ sr ∧ myCeil2 ref.length ≤ er ∧
      fetchOk g chrom (center - sr) (center + er) = true)
    (hdel : (normAlt a0).length < ref.length →
      (normAlt a0).length / 2 ≤ sr ∧ myCeil2 (normAlt a0).length ≤ er ∧
      fetchOk g chrom (pos - sr)
        (pos - (((normAlt a0).length / 2 : Nat) : Int)) = true)
    (hins : ref.length < (normAlt a0).length →
      (normAlt a0).length / 2 ≤ sr ∧ myCeil2 (normAlt a0).length ≤ er ∧
      fetchOk g chrom (pos - sr)
        (pos - (((normAlt a0).length / 2 : Nat) : Int)) = true ∧
      fetchOk g chrom (pos + myCeil2 (normAlt a0).length)
        (pos + er) = true) :
    (processAlt g sr er chrom pos ref center a0).length = seqLen := by
  rcases Nat.lt_trichotomy (normAlt a0).length ref.length with hlt | heq | hgt
  · obtain ⟨ha, hb, hc⟩ := hdel hlt
    rw [processAlt_deletion hlt]
    obtain ⟨cs, hcs⟩ := chromSeq_of_fetchOk hc
    obtain ⟨h0, h1, h2⟩ := fetchOk_bounds hc hcs
    rw [List.length_append, List.length_append, length_fetch hc,
      length_fetch_pad hcs]
    simp only [myCeil2] at hb ⊢
    omega
  · obtain ⟨ha, hb, hc⟩ := hsub heq.symm
    simp only [myCeil2] at hb
    rw [processAlt_substitution heq.symm]
    set S := getSequenceFromCoords g chrom (center - (sr : Int))
      (center + (er : Int)) false with hS
    have hSlen : S.length = sr + er := by
      rw [hS, length_fetch hc]; omega
    rw [List.length_append, List.length_append]
    rw [length_pySliceTo S _ (by omega) (by rw [hSlen]; omega)]
    rw [length_pySliceFrom S _ (by omega) (by rw [hSlen]; omega)]
    rw [hSlen]
    omega
  · obtain ⟨ha, hb, hc, hd⟩ := hins hgt
    rw [processAlt_insertion hgt]
    rw [List.length_append, List.length_append, length_fetch hc,
      length_fetch hd]
    obtain ⟨cs, hcs⟩ := chromSeq_of_fetchOk hc
    obtain ⟨h0, h1, h2⟩ := fetchOk_bounds hc hcs
    simp only [myCeil2] at hb ⊢
    omega

/-- C3 witness: the amended length property evaluated on a deletion variant
(`ref = "ATG"`, `alt = "A"`, `pos = 10`, `sequence_length = 5`). -/
theorem process_alts_window_length_witness :
    (processAlt [(['c'], List.replicate 20 'A')] 2 3 ['c'] 10
      "ATG".data 11 ['A']).length = 5 :=
  process_alts_window_length [(['c'], List.replicate 20 'A')] 5 2 3 ['c']
    10 "ATG".data ['A'] 11 (by decide) (by decide) (by decide) (by decide)

/-- C7: the engine's radii satisfy `start_radius = floor(sequence_length/2)`
and `end_radius = start_radius` (even length) or `start_radius + 1` (odd
length), and every window `[center - start_radius, center + end_radius)`
has length exactly `sequence_length`.  The radii are plain functions of
`sequence_length`, so they are fixed at construction and identical for
every windowing operation of the instance. -/
theorem window_radii (n : Nat) (hn : 0 < n) :
    startRadius n = n / 2 ∧
    (n % 2 = 0 → endRadius n = startRadius n) ∧
    (n % 2 ≠ 0 → endRadius n = startRadius n + 1) ∧
    ∀ center : Int,
      (center + endRadius n) - (center - startRadius n) = (n : Int) := by
  refine ⟨rfl, ?_, ?_, ?_⟩
  · intro h
    simp [endRadius, startRadius, h]
  · intro h
    simp [endRadius, startRadius, h]
  · intro center
    unfold startRadius endRadius
    split_ifs <;> omega

/-- C7 witness: the radii property at the odd length 5. -/
theorem window_radii_witness :
    startRadius 5 = 2 ∧ endRadius 5 = 3 ∧
      ((100 : Int) + endRadius 5) - ((100 : Int) - startRadius 5) = 5 := by
  have h := window_radii 5 (by decide)
  exact ⟨h.1.trans (by decide),
    (h.2.2.1 (by decide)).trans (by decide), h.2.2.2 100⟩

/-- C9: `in_silico_mutagenesis` invokes the enumerator with the literal
`mutate_n_bases=1` (src line 615), so whatever value the caller passes, the
enumerated mutation set is exactly the single-base set for the
padded/truncated sequence. -/
theorem ism_ignores_mutate_n_bases (alphabet : List Char) (unk : Char)
    (seqLen : Nat) (s : Str) (k : Nat) :
    inSilicoMutagenesisEnumeration alphabet unk seqLen s k =
      inSilicoMutagenesisEnumeration alphabet unk seqLen s 1 ∧
    inSilicoMutagenesisEnumeration alphabet unk seqLen s k =
      inSilicoMutagenesisSequences alphabet
        (ismPrepareSequence unk seqLen s) 1 :=
  ⟨rfl, rfl⟩

/-! Lemmas for the single-base mutagenesis enumeration. -/

theorem combinations_one {α : Type} (l : List α) :
    combinations 1 l = l.map (fun x => [x]) := by
  induction l with
  | nil => rfl
  | cons x xs ih => simp [combinations, ih]

theorem listProd_singleton {α : Type} (l : List α) :
    listProd [l] = l.map (fun x => [x]) := by
  induction l with
  | nil => rfl
  | cons x xs ih =>
      simp only [listProd, List.bind] at ih ⊢
      simp at ih ⊢
      exact ih

theorem bind_of_map {α β γ : Type} (l : List α) (f : α → β)
    (g : β → List γ) : (l.map f).bind g = l.bind (fun a => g (f a)) := by
  induction l with
  | nil => rfl
  | cons x xs ih => simp [ih]

theorem ism_one_eq (alphabet : List Char) (s : Str) :
    inSilicoMutagenesisSequences alphabet s 1 =
      (List.range s.length).bind (fun i =>
        ((sequenceAlts alphabet s).getD i []).map (fun b => [(i, b)])) := by
  unfold inSilicoMutagenesisSequences
  rw [combinations_one, bind_of_map]
  refine List.bind_congr (fun i _ => ?_)
  simp only [List.map_cons, List.map_nil]
  rw [listProd_singleton, List.map_map]
  rfl

theorem sequenceAlts_getD (alphabet : List Char) (s : Str) (i : Nat)
    (h : i < s.length) :
    (sequenceAlts alphabet s).getD i [] =
      alphabet.filter (fun b => decide (b ≠ s.getD i 'A')) := by
  unfold sequenceAlts
  rw [List.getD_eq_getElem?_getD, List.getD_eq_getElem?_getD,
    List.getElem?_map]
  rw [List.getElem?_eq_getElem h]
  rfl

theorem filter_ne_length {α : Type} [DecidableEq α] (l : List α) (c : α)
    (h1 : l.Nodup) (h2 : c ∈ l) :
    (l.filter (fun b => decide (b ≠ c))).length = l.length - 1 := by
  induction l with
  | nil => cases h2
  | cons a t ih =>
      rw [List.nodup_cons] at h1
      by_cases hac : a = c
      · subst hac
        have ht : t.filter (fun b => decide (b ≠ a)) = t := by
          apply List.filter_eq_self.mpr
          intro x hx
          simp only [decide_eq_true_eq]
          intro e
          exact h1.1 (e ▸ hx)
        rw [List.filter_cons, if_neg (by simp), ht]
        simp
      · have hc : c ∈ t := by
          cases List.mem_cons.mp h2 with
          | inl h => exact absurd h.symm hac
          | inr h => exact h
        have hlen : 1 ≤ t.length := List.length_pos.mpr
          (List.ne_nil_of_mem hc)
        rw [List.filter_cons, if_pos (by simpa using hac)]
        rw [List.length_cons, ih h1.2 hc, List.length_cons]
        omega

/-- C4: for a sequence all of whose symbols are in the (duplicate-free)
alphabet, `in_silico_mutagenesis_sequences` with `mutate_n_bases = 1`
returns, in order of ascending position and within a position in alphabet
order excluding the reference base, exactly
`length * (alphabet_size - 1)` mutation sets; each is a single
`(position, base)` pair with base different from the reference base at that
position, and no set is duplicated. -/
theorem ism_single_base (alphabet : List Char) (s : Str)
    (hA : alphabet.Nodup) (hS : ∀ c ∈ s, c ∈ alphabet) :
    inSilicoMutagenesisSequences alphabet s 1 =
      (List.range s.length).bind (fun i =>
        (alphabet.filter (fun b => decide (b ≠ s.getD i 'A'))).map
          (fun b => [(i, b)])) ∧
    (inSilicoMutagenesisSequences alphabet s 1).length =
      s.length * (alphabet.length - 1) ∧
    (inSilicoMutagenesisSequences alphabet s 1).Nodup := by
  have hmain : inSilicoMutagenesisSequences alphabet s 1 =
      (List.range s.length).bind (fun i =>
        (alphabet.filter (fun b => decide (b ≠ s.getD i 'A'))).map
          (fun b => [(i, b)])) := by
    rw [ism_one_eq]
    exact List.bind_congr (fun i hi =>
      by rw [sequenceAlts_getD alphabet s i (List.mem_range.mp hi)])
  have hmem : ∀ i, i < s.length → s.getD i 'A' ∈ alphabet := by
    intro i hi
    apply hS
    rw [List.getD_eq_getElem?_getD, List.getElem?_eq_getElem hi]
    exact List.getElem_mem hi
  refine ⟨hmain, ?_, ?_⟩
  · rw [hmain, List.length_bind]
    simp only [Function.comp_def]
    have : ∀ i ∈ List.range s.length,
        ((alphabet.filter (fun b => decide (b ≠ s.getD i 'A'))).map
          (fun b => [(i, b)])).length = alphabet.length - 1 := by
      intro i hi
      rw [List.length_map,
        filter_ne_length alphabet _ hA (hmem i (List.mem_range.mp hi))]
    rw [List.map_congr_left this, List.map_const', List.sum_replicate,
      List.length_range, smul_eq_mul]
  · rw [hmain]
    apply List.nodup_bind.mpr
    constructor
    · intro i _
      refine List.Nodup.map ?_ (hA.filter _)
      intro b1 b2 he
      simpa using he
    · refine List.Pairwise.imp ?_ (List.nodup_range s.length)
      intro i j hij x hxi hxj
      obtain ⟨b1, _, hb1⟩ := List.mem_map.mp hxi
      obtain ⟨b2, _, hb2⟩ := List.mem_map.mp hxj
      rw [← hb1] at hb2
      exact hij (by injection hb2.symm with h1 _; injection h1)

/-- C4 witness: the enumeration property at a concrete two-base sequence
over the DNA alphabet. -/
theorem ism_single_base_witness :
    (['A', 'C', 'G', 'T'] : List Char).Nodup ∧
      (inSilicoMutagenesisSequences ['A', 'C', 'G', 'T'] ['A', 'C']
        1).length = 2 * (4 - 1) ∧
      (inSilicoMutagenesisSequences ['A', 'C', 'G', 'T'] ['A', 'C']
        1).Nodup :=
  ⟨by decide,
    (ism_single_base ['A', 'C', 'G', 'T'] ['A', 'C'] (by decide)
      (by decide)).2.1,
    (ism_single_base ['A', 'C', 'G', 'T'] ['A', 'C'] (by decide)
      (by decide)).2.2⟩

/-! Lemmas for the mutation applier. -/

theorem getD_set_ne {α : Type} (l : List α) (p i : Nat) (x d : α)
    (h : p ≠ i) : (l.set p x).getD i d = l.getD i d := by
  rw [List.getD_eq_getElem?_getD, List.getD_eq_getElem?_getD,
    List.getElem?_set_ne h]

theorem getD_set_self {α : Type} (l : List α) (p : Nat) (x d : α)
    (h : p < l.length) : (l.set p x).getD p d = x := by
  rw [List.getD_eq_getElem?_getD, List.getElem?_set_self]
  · rfl
  · exact h

theorem mutateSequence_cons (b : Char → Nat) (enc : List (List Nat))
    (m : Nat × Char) (rest : List (Nat × Char)) :
    mutateSequence b enc (m :: rest) =
      mutateSequence b
        (enc.set m.1
          ((List.replicate (enc.getD m.1 []).length 0).set (b m.2) 1))
        rest := rfl

theorem mutateSequence_length (b : Char → Nat) :
    ∀ (muts : List (Nat × Char)) (enc : List (List Nat)),
      (mutateSequence b enc muts).length = enc.length := by
  intro muts
  induction muts with
  | nil => intro enc; rfl
  | cons m rest ih =>
      intro enc
      rw [mutateSequence_cons, ih, List.length_set]

theorem mutateSequence_getD_not_mem (b : Char → Nat) :
    ∀ (muts : List (Nat × Char)) (enc : List (List Nat)) (i : Nat),
      i ∉ muts.map Prod.fst →
      (mutateSequence b enc muts).getD i [] = enc.getD i [] := by
  intro muts
  induction muts with
  | nil => intro enc i _; rfl
  | cons m rest ih =>
      intro enc i hi
      rw [List.map_cons, List.mem_cons] at hi
      push_neg at hi
      rw [mutateSequence_cons, ih _ _ hi.2,
        getD_set_ne _ _ _ _ _ (Ne.symm hi.1)]

theorem mutateSequence_getD_mem (b : Char → Nat) :
    ∀ (muts : List (Nat × Char)) (enc : List (List Nat)) (p : Nat)
      (a : Char), (muts.map Prod.fst).Nodup → (p, a) ∈ muts →
      p < enc.length →
      (mutateSequence b enc muts).getD p [] =
        (List.replicate ((enc.getD p []).length) 0).set (b a) 1 := by
  intro muts
  induction muts with
  | nil => intro enc p a _ hm; cases hm
  | cons m rest ih =>
      intro enc p a hnd hm hp
      rw [List.map_cons, List.nodup_cons] at hnd
      rw [mutateSequence_cons]
      cases List.mem_cons.mp hm with
      | inl h =>
          have hp1 : m.1 = p := by rw [← h]
          have hm2 : m.2 = a := by rw [← h]
          have hnotin : p ∉ rest.map Prod.fst := hp1 ▸ hnd.1
          rw [mutateSequence_getD_not_mem b rest _ p hnotin, hp1, hm2,
            getD_set_self _ _ _ _ hp]
      | inr h =>
          have hne : m.1 ≠ p := by
            intro he
            exact hnd.1 (he ▸ List.mem_map_of_mem Prod.fst h)
          rw [ih _ p a hnd.2 h (by rw [List.length_set]; exact hp),
            getD_set_ne _ _ _ _ _ hne]

/-- C6: `mutate_sequence` starts from a copy of the caller's encoding (the
embedding is pure, mirroring `np.copy` at src line 140, so the input is
never mutated); for a mutation set with pairwise-distinct positions the
result agrees with the input on every non-mutated row, each mutated row is
all zeros except a 1 at the replacement base's column, and the empty
mutation set is the identity. -/
theorem mutate_sequence_spec (b : Char → Nat) (enc : List (List Nat))
    (muts : List (Nat × Char)) :
    mutateSequence b enc [] = enc ∧
    ((muts.map Prod.fst).Nodup →
      (mutateSequence b enc muts).length = enc.length ∧
      (∀ i, i ∉ muts.map Prod.fst →
        (mutateSequence b enc muts).getD i [] = enc.getD i []) ∧
      (∀ p a, (p, a) ∈ muts → p < enc.length →
        (mutateSequence b enc muts).getD p [] =
          (List.replicate ((enc.getD p []).length) 0).set (b a) 1)) := by
  refine ⟨rfl, fun hnd => ⟨mutateSequence_length b muts enc, ?_, ?_⟩⟩
  · intro i hi
    exact mutateSequence_getD_not_mem b muts enc i hi
  · intro p a hm hp
    exact mutateSequence_getD_mem b muts enc p a hnd hm hp

/-- C6 witness: mutating position 0 of a 2x2 one-hot encoding to the base
at column 1. -/
theorem mutate_sequence_spec_witness :
    (([(0, 'C')].map Prod.fst).Nodup ∧
      (mutateSequence (fun c => if c = 'C' then 1 else 0)
          [[1, 0], [0, 1]] [(0, 'C')]).getD 1 [] = [0, 1]) ∧
      (mutateSequence (fun c => if c = 'C' then 1 else 0)
          [[1, 0], [0, 1]] [(0, 'C')]).getD 0 [] = [0, 1] := by
  have h := mutate_sequence_spec (fun c => if c = 'C' then 1 else 0)
    [[1, 0], [0, 1]] [(0, 'C')]
  refine ⟨⟨by decide, ?_⟩, ?_⟩
  · exact ((h.2 (by decide)).2.1 1 (by decide)).trans (by decide)
  · exact ((h.2 (by decide)).2.2 0 'C' (by decide) (by decide)).trans
      (by decide)

/-- `AnalyzeSequences._handle_standard_ref` (src lines 829-841): locate the
ref-allele region inside the fetched window encoding, compare it to the
declared reference allele's encoding, substitute the declared encoding on
mismatch, and return the match flag, the (possibly updated) window encoding
and the decoded fetched region. -/
def handleStandardRef {α : Type} [DecidableEq α] (decode : List α → Str)
    (sr : Nat) (refEnc seqEnc : List α) : Bool × List α × Str :=
  let refLen := refEnc.length
  let startPos : Int := (sr : Int) - ((refLen / 2 : Nat) : Int)
  let seqEncodingAtRef := pySlice seqEnc startPos (startPos + refLen)
  let seqAtRef := decode seqEncodingAtRef
  if seqEncodingAtRef = refEnc then (true, seqEnc, seqAtRef)
  else
    (false,
      pySliceTo seqEnc startPos ++ refEnc ++
        pySliceFrom seqEnc (startPos + refLen),
      seqAtRef)

/-- `AnalyzeSequences._handle_long_ref` (src lines 843-855): slice the
declared reference allele's encoding to the central window-sized region,
compare it to the whole fetched window encoding, replace the window by that
slice on mismatch, and return the match flag, the (possibly replaced)
window encoding and the decoded fetched window. -/
def handleLongRef {α : Type} [DecidableEq α] (decode : List α → Str)
    (sr er : Nat) (refEnc seqEnc : List α) : Bool × List α × Str :=
  let refLen := refEnc.length
  let seqAtRef := decode seqEnc
  let refStart : Int := ((refLen / 2 : Nat) : Int) - (sr : Int)
  let refEnd : Int := ((refLen / 2 : Nat) : Int) + (er : Int)
  let refEncCentral := pySlice refEnc refStart refEnd
  if seqEnc = refEncCentral then (true, seqEnc, seqAtRef)
  else (false, refEncCentral, seqAtRef)

theorem pyBound_eq (n : Nat) (i : Int) (h0 : 0 ≤ i) (h : i ≤ (n : Int)) :
    pyBound n i = i.toNat := by
  unfold pyBound
  split_ifs <;> omega

theorem pySliceTo_eq_take {α : Type} (s : List α) (b : Int) (h0 : 0 ≤ b)
    (hb : b ≤ (s.length : Int)) : pySliceTo s b = s.take b.toNat := by
  unfold pySliceTo
  rw [pyBound_eq _ _ h0 hb]

theorem pySliceFrom_eq_drop {α : Type} (s : List α) (a : Int) (h0 : 0 ≤ a)
    (ha : a ≤ (s.length : Int)) : pySliceFrom s a = s.drop a.toNat := by
  unfold pySliceFrom
  rw [pyBound_eq _ _ h0 ha]

theorem pySlice_eq_drop_take {α : Type} (s : List α) (a b : Int)
    (h0 : 0 ≤ a) (hab : a ≤ b) (hb : b ≤ (s.length : Int)) :
    pySlice s a b = (s.drop a.toNat).take (b - a).toNat := by
  unfold pySlice
  rw [pyBound_eq _ _ (le_trans h0 hab) hb,
    pyBound_eq _ _ h0 (le_trans hab hb)]
  rw [List.drop_take b.toNat a.toNat s]
  congr 1
  omega

/-- C5: in the standard regime (declared ref shorter than the window) the
checker returns `match = true` and leaves the window unchanged exactly when
the window's ref-allele region equals the declared allele's encoding; on
mismatch it splices the declared encoding into the window at offset
`start_radius - floor(ref_len/2)` and returns `match = false`; the decoded
fetched region is always returned.  In the long regime (declared ref at
least window-sized) the comparison is against the central window-sized
slice of the declared allele's encoding, which on mismatch becomes the
whole window; the decoded fetched window is always returned. -/
theorem ref_consistency_checker {α : Type} [DecidableEq α]
    (decode : List α → Str) (sr er : Nat) (refEnc seqEnc : List α) :
    ((refEnc.length / 2 ≤ sr ∧
        sr - refEnc.length / 2 + refEnc.length ≤ seqEnc.length) →
      ((handleStandardRef decode sr refEnc seqEnc).1 = true ↔
        (seqEnc.drop (sr - refEnc.length / 2)).take refEnc.length =
          refEnc) ∧
      ((handleStandardRef decode sr refEnc seqEnc).1 = true →
        (handleStandardRef decode sr refEnc seqEnc).2.1 = seqEnc) ∧
      ((handleStandardRef decode sr refEnc seqEnc).1 = false →
        (handleStandardRef decode sr refEnc seqEnc).2.1 =
          seqEnc.take (sr - refEnc.length / 2) ++ refEnc ++
            seqEnc.drop (sr - refEnc.length / 2 + refEnc.length)) ∧
      (handleStandardRef decode sr refEnc seqEnc).2.2 =
        decode
          ((seqEnc.drop (sr - refEnc.length / 2)).take refEnc.length)) ∧
    ((sr ≤ refEnc.length / 2 ∧ refEnc.length / 2 + er ≤ refEnc.length) →
      ((handleLongRef decode sr er refEnc seqEnc).1 = true ↔
        seqEnc = (refEnc.drop (refEnc.length / 2 - sr)).take (sr + er)) ∧
      ((handleLongRef decode sr er refEnc seqEnc).1 = true →
        (handleLongRef decode sr er refEnc seqEnc).2.1 = seqEnc) ∧
      ((handleLongRef decode sr er refEnc seqEnc).1 = false →
        (handleLongRef decode sr er refEnc seqEnc).2.1 =
          (refEnc.drop (refEnc.length / 2 - sr)).take (sr + er)) ∧
      (handleLongRef decode sr er refEnc seqEnc).2.2 = decode seqEnc) := by
  constructor
  · rintro ⟨h1, h2⟩
    have hregion :
        pySlice seqEnc ((sr : Int) - ((refEnc.length / 2 : Nat) : Int))
            ((sr : Int) - ((refEnc.length / 2 : Nat) : Int) +
              refEnc.length) =
          (seqEnc.drop (sr - refEnc.length / 2)).take refEnc.length := by
      rw [pySlice_eq_drop_take _ _ _ (by omega) (by omega) (by omega)]
      have e1 : ((sr : Int) - ((refEnc.length / 2 : Nat) : Int)).toNat =
          sr - refEnc.length / 2 := by omega
      have e2 : ((sr : Int) - ((refEnc.length / 2 : Nat) : Int) +
          (refEnc.length : Int) -
          ((sr : Int) - ((refEnc.length / 2 : Nat) : Int))).toNat =
          refEnc.length := by omega
      rw [e1, e2]
    have htake :
        pySliceTo seqEnc ((sr : Int) - ((refEnc.length / 2 : Nat) : Int)) =
          seqEnc.take (sr - refEnc.length / 2) := by
      rw [pySliceTo_eq_take _ _ (by omega) (by omega)]
      have e1 : ((sr : Int) - ((refEnc.length / 2 : Nat) : Int)).toNat =
          sr - refEnc.length / 2 := by omega
      rw [e1]
    have hdrop :
        pySliceFrom seqEnc
            ((sr : Int) - ((refEnc.length / 2 : Nat) : Int) +
              refEnc.length) =
          seqEnc.drop (sr - refEnc.length / 2 + refEnc.length) := by
      rw [pySliceFrom_eq_drop _ _ (by omega) (by omega)]
      have e1 : ((sr : Int) - ((refEnc.length / 2 : Nat) : Int) +
          (refEnc.length : Int)).toNat =
          sr - refEnc.length / 2 + refEnc.length := by omega
      rw [e1]
    simp only [handleStandardRef]
    rw [hregion, htake, hdrop]
    by_cases hm :
        (seqEnc.drop (sr - refEnc.length / 2)).take refEnc.length = refEnc
    · rw [if_pos hm]
      exact ⟨by simp [hm], fun _ => rfl, by simp, rfl⟩
    · rw [if_neg hm]
      exact ⟨by simp [hm], by simp, fun _ => rfl, rfl⟩
  · rintro ⟨h1, h2⟩
    have hcentral :
        pySlice refEnc
            (((refEnc.length / 2 : Nat) : Int) - (sr : Int))
            (((refEnc.length / 2 : Nat) : Int) + (er : Int)) =
          (refEnc.drop (refEnc.length / 2 - sr)).take (sr + er) := by
      rw [pySlice_eq_drop_take _ _ _ (by omega) (by omega) (by omega)]
      have e1 : (((refEnc.length / 2 : Nat) : Int) - (sr : Int)).toNat =
          refEnc.length / 2 - sr := by omega
      have e2 : ((((refEnc.length / 2 : Nat) : Int) + (er : Int)) -
          (((refEnc.length / 2 : Nat) : Int) - (sr : Int))).toNat =
          sr + er := by omega
      rw [e1, e2]
    simp only [handleLongRef]
    rw [hcentral]
    by_cases hm :
        seqEnc = (refEnc.drop (refEnc.length / 2 - sr)).take (sr + er)
    · rw [if_pos hm]
      exact ⟨by simp [hm], fun _ => rfl, by simp, rfl⟩
    · rw [if_neg hm]
      exact ⟨by simp [hm], by simp, fun _ => rfl, rfl⟩

/-- C5 witness: the standard regime detecting a mismatch at rows of
naturals, and the long regime matching exactly, both at concrete inputs. -/
theorem ref_consistency_checker_witness :
    ((handleStandardRef (fun _ => []) 2 ([[5]] : List (List Nat))
        [[1], [2], [3], [4]]).1 = false ∧
      (handleStandardRef (fun _ => []) 2 ([[5]] : List (List Nat))
        [[1], [2], [3], [4]]).2.1 = [[1], [2], [5], [4]]) ∧
    (handleLongRef (fun _ => []) 2 2 ([[1], [2], [3], [4]] : List (List Nat))
        [[1], [2], [3], [4]]).1 = true := by
  have hs := (ref_consistency_checker (fun _ => ([] : Str)) 2 2
    ([[5]] : List (List Nat)) [[1], [2], [3], [4]]).1 (by decide)
  have hl := (ref_consistency_checker (fun _ => ([] : Str)) 2 2
    ([[1], [2], [3], [4]] : List (List Nat)) [[1], [2], [3], [4]]).2
    (by decide)
  refine ⟨⟨?_, ?_⟩, ?_⟩
  · have := hs.1
    by_cases hb : (handleStandardRef (fun _ => ([] : Str)) 2
        ([[5]] : List (List Nat)) [[1], [2], [3], [4]]).1 = true
    · exact absurd (this.mp hb) (by decide)
    · simpa using hb
  · apply (hs.2.2.1 ?_).trans
    · decide
    · by_cases hb : (handleStandardRef (fun _ => ([] : Str)) 2
          ([[5]] : List (List Nat)) [[1], [2], [3], [4]]).1 = true
      · exact absurd (hs.1.mp hb) (by decide)
      · simpa using hb
  · exact hl.1.mpr (by decide)

/-! The variant-effect-prediction loop. -/

/-- Python's substring containment test (`needle in hay`). -/
def containsSub (needle hay : Str) : Bool :=
  (List.range (hay.length + 1)).any (fun i => needle.isPrefixOf (hay.drop i))

/-- Modelled from the spec: the alphabet collaborator's base-to-column
mapping (A, C, G, T in alphabet order; `Genome` is not under `src/`). -/
def baseIndexOf (c : Char) : Option Nat :=
  if c = 'A' then some 0
  else if c = 'C' then some 1
  else if c = 'G' then some 2
  else if c = 'T' then some 3
  else none

/-- Modelled from the spec: one row of `sequence_to_encoding` — a single 1
at the base's column, with the unknown symbol encoded by a designated
non-one-hot pattern (here the all-zero row the spec explicitly permits). -/
def oneHotRow (c : Char) : List Nat :=
  match baseIndexOf c with
  | some i => (List.replicate 4 0).set i 1
  | none => List.replicate 4 0

/-- Modelled from the spec: `sequence_to_encoding` of the reference-sequence
collaborator ("encode(sequence)->encoding", row order matching sequence
order). -/
def sequenceToEncoding (s : Str) : List (List Nat) := s.map oneHotRow

/-- Modelled from the spec: one row of `encoding_to_sequence`, the inverse
decoding of `oneHotRow`. -/
def decodeRow (r : List Nat) : Char :=
  if r = [1, 0, 0, 0] then 'A'
  else if r = [0, 1, 0, 0] then 'C'
  else if r = [0, 0, 1, 0] then 'G'
  else if r = [0, 0, 0, 1] then 'T'
  else 'N'

/-- Modelled from the spec: `encoding_to_sequence` of the reference-sequence
collaborator ("decode(encoding)->sequence"). -/
def encodingToSequence (e : List (List Nat)) : Str := e.map decodeRow

/-- One VCF variant as `read_vcf_file` returns it: chromosome, 1-based
position, name, reference allele, alternate allele field (possibly
comma-separated). -/
structure Variant where
  chrom : Str
  pos : Int
  name : Str
  ref : Str
  alt : Str
deriving DecidableEq

/-- A row identifier as handed to the reporters:
(chrom, pos, name, ref, alt). -/
abbrev VarId := Str × Int × Str × Str × Str

/-- Observable reporter interactions of `variant_effect_prediction`: an NA
record broadcast to every reporter (`handle_NA`), a batch diverted to the
warning stream, or a scored ref/alt prediction batch
(`_handle_ref_alt_predictions`), each recorded by its row identifiers. -/
inductive VEEvent where
  | na : VarId → VEEvent
  | warnBatch : List VarId → VEEvent
  | predBatch : List VarId → VEEvent
deriving DecidableEq

/-- The engine state relevant to `variant_effect_prediction`: the genome,
whether the reference sequence is a `Genome` instance (src line 945), the
model's sequence length, the two radii and the batch size. -/
structure VEConfig where
  genome : RefGenome
  isGenome : Bool
  seqLen : Nat
  sr : Nat
  er : Nat
  batchSize : Nat
deriving DecidableEq

/-- The loop-carried state of `variant_effect_prediction`:
`batch_ref_seqs`, `batch_alt_seqs`, `batch_ids` and the emitted reporter
events. -/
structure VEState where
  refs : List (List (List Nat))
  alts : List (List (List Nat))
  ids : List VarId
  events : List VEEvent
deriving DecidableEq

/-- The reference-window center, `pos + len(ref) // 2 - 1` (src line 941). -/
def veCenter (v : Variant) : Int :=
  v.pos + ((v.ref.length / 2 : Nat) : Int) - 1

/-- The chromosome-name rewriting of src lines 945-949, applied only when
the reference sequence is a `Genome`: prepend `chr` when the name does not
contain it, then drop the final character when the result contains `MT`. -/
def veChrom (cfg : VEConfig) (c : Str) : Str :=
  if cfg.isGenome then
    let c1 := if containsSub "chr".data c then c else "chr".data ++ c
    if containsSub "MT".data c1 then c1.dropLast else c1
  else c

/-- One iteration of the variant loop of
`AnalyzeSequences.variant_effect_prediction` (src lines 938-995): compute
the centered window, rewrite the chromosome name, divert out-of-bounds
variants to NA, build ref/alt encodings, run the reference-consistency
check, divert mismatches to the warning stream, and otherwise accumulate
the batch, flushing when it reaches `batch_size`. -/
def processVariant (cfg : VEConfig) (st : VEState) (v : Variant) :
    VEState :=
  let center : Int := veCenter v
  let start : Int := center - cfg.sr
  let e : Int := center + cfg.er
  let chrom : Str := veChrom cfg v.chrom
  if coordsInBounds cfg.genome chrom start e = false then
    { st with events :=
        st.events ++ [VEEvent.na (chrom, v.pos, v.name, v.ref, v.alt)] }
  else
    let seqEncoding := sequenceToEncoding
      (getSequenceFromCoords cfg.genome chrom start e false)
    let refEncoding := sequenceToEncoding v.ref
    let allAlts := v.alt.splitOn ','
    let altEncodings := allAlts.map (fun a => sequenceToEncoding
      (processAlt cfg.genome cfg.sr cfg.er chrom v.pos v.ref center a))
    let res :=
      if v.ref.length < cfg.seqLen then
        handleStandardRef encodingToSequence cfg.sr refEncoding seqEncoding
      else
        handleLongRef encodingToSequence cfg.sr cfg.er refEncoding
          seqEncoding
    if res.1 = false then
      { st with events := st.events ++
          [VEEvent.warnBatch
            (allAlts.map (fun a => (chrom, v.pos, v.name, v.ref, a)))] }
    else
      let ids := st.ids ++
        allAlts.map (fun a => (chrom, v.pos, v.name, v.ref, a))
      let refs := st.refs ++ List.replicate allAlts.length res.2.1
      let alts := st.alts ++ altEncodings
      if cfg.batchSize ≤ refs.length then
        ⟨[], [], [], st.events ++ [VEEvent.predBatch ids]⟩
      else
        ⟨refs, alts, ids, st.events⟩

/-- The variant loop folded over a variant list. -/
def runVariants (cfg : VEConfig) (st : VEState) (vs : List Variant) :
    VEState :=
  vs.foldl (processVariant cfg) st

/-- All reporter events of `variant_effect_prediction` over a variant list,
including the final partial-batch flush (src lines 997-999). -/
def variantEffectPredictionEvents (cfg : VEConfig) (vs : List Variant) :
    List VEEvent :=
  let st := runVariants cfg ⟨[], [], [], []⟩ vs
  if st.refs.isEmpty then st.events
  else st.events ++ [VEEvent.predBatch st.ids]

theorem processVariant_oob (cfg : VEConfig) (st : VEState) (v : Variant)
    (h : coordsInBounds cfg.genome (veChrom cfg v.chrom)
      (veCenter v - cfg.sr) (veCenter v + cfg.er) = false) :
    processVariant cfg st v =
      { st with events := st.events ++
          [VEEvent.na
            (veChrom cfg v.chrom, v.pos, v.name, v.ref, v.alt)] } := by
  simp only [processVariant]
  rw [h]
  simp

/-- C8: a variant whose (rewritten-chromosome) reference-centered window is
out of bounds or whose chromosome is absent contributes exactly one NA
event, leaves the accumulated ref/alt batch untouched (so no prediction for
it can reach the scored output), and the remaining variants are processed
exactly as they would have been. -/
theorem variant_oob_na_diversion (cfg : VEConfig) (st0 : VEState)
    (pre post : List Variant) (v : Variant)
    (h : coordsInBounds cfg.genome (veChrom cfg v.chrom)
      (veCenter v - cfg.sr) (veCenter v + cfg.er) = false) :
    runVariants cfg st0 (pre ++ v :: post) =
      runVariants cfg
        { runVariants cfg st0 pre with
          events := (runVariants cfg st0 pre).events ++
            [VEEvent.na
              (veChrom cfg v.chrom, v.pos, v.name, v.ref, v.alt)] }
        post := by
  unfold runVariants
  rw [List.foldl_append, List.foldl_cons]
  rw [processVariant_oob cfg _ v h]

/-- C8 witness: a variant on an absent chromosome produces one NA event and
an otherwise empty run. -/
theorem variant_oob_na_diversion_witness :
    runVariants ⟨[(['1'], List.replicate 9 'A')], false, 4, 2, 2, 1⟩
        ⟨[], [], [], []⟩ [⟨['2'], 3, [], ['A'], ['G']⟩] =
      ⟨[], [], [],
        [VEEvent.na (['2'], 3, [], ['A'], ['G'])]⟩ := by
  have h := variant_oob_na_diversion
    ⟨[(['1'], List.replicate 9 'A')], false, 4, 2, 2, 1⟩
    ⟨[], [], [], []⟩ [] [] ⟨['2'], 3, [], ['A'], ['G']⟩ (by decide)
  exact h.trans (by decide)

/-- The chromosome rewriting exactly as claim C10 words it: the prefix
`chr` is prepended whenever the name does not contain the substring `chr`,
and any resulting name containing the substring `MT` has its final
character removed. -/
def rewriteChromSpec (c : Str) : Str :=
  let c1 := if containsSub "chr".data c then c else "chr".data ++ c
  if containsSub "MT".data c1 then c1.dropLast else c1

/-- C10: when the reference sequence is a `Genome` instance, processing a
variant is identical to processing the variant with its chromosome name
replaced by the claim's rewriting and no further rewriting applied — so
the bounds check, every fetch and every emitted row identifier use the
rewritten name; in particular `MT` becomes `chrM`. -/
theorem chrom_rewrite_refinement (cfg : VEConfig) (st : VEState)
    (v : Variant) (h : cfg.isGenome = true) :
    processVariant cfg st v =
      processVariant { cfg with isGenome := false } st
        { v with chrom := rewriteChromSpec v.chrom } ∧
    rewriteChromSpec "MT".data = "chrM".data := by
  constructor
  · have h1 : veChrom cfg v.chrom = rewriteChromSpec v.chrom := by
      simp only [veChrom, rewriteChromSpec, h, if_true]
    have h2 : veChrom { cfg with isGenome := false }
        (rewriteChromSpec v.chrom) = rewriteChromSpec v.chrom := rfl
    have h3 : veCenter { v with chrom := rewriteChromSpec v.chrom } =
        veCenter v := rfl
    simp only [processVariant, h3, h2, h1]
  · decide

/-- C10 witness: the refinement evaluated for a `Genome`-backed engine at
the mitochondrial chromosome name. -/
theorem chrom_rewrite_refinement_witness :
    processVariant ⟨[("chrM".data, List.replicate 9 'A')], true, 4, 2, 2, 1⟩
        ⟨[], [], [], []⟩ ⟨"MT".data, 3, [], ['A'], ['G']⟩ =
      processVariant ⟨[("chrM".data, List.replicate 9 'A')], false, 4, 2, 2, 1⟩
        ⟨[], [], [], []⟩ ⟨"chrM".data, 3, [], ['A'], ['G']⟩ := by
  have h := chrom_rewrite_refinement
    ⟨[("chrM".data, List.replicate 9 'A')], true, 4, 2, 2, 1⟩
    ⟨[], [], [], []⟩ ⟨"MT".data, 3, [], ['A'], ['G']⟩ rfl
  exact h.1.trans (by rw [show rewriteChromSpec "MT".data = "chrM".data
    from h.2])

/-! The FASTA prediction loop. -/

/-- The batching loop of `AnalyzeSequences.get_predictions_for_fasta_file`
(src lines 471-502), with the model and reporter left abstract: the result
records, in order, every call made to the reporter — the batch of encodings
passed to `self.predict` paired with the `batch_ids` list passed to
`handle_batch_predictions`.  The embedding mirrors the code exactly:
`batch_ids` accumulates without ever being cleared, a flush happens before
the current record is stored whenever `i` is nonzero and divisible by the
batch size, and the tail flush is guarded by `i % batch_size != 0` on the
final record index.  (On an empty FASTA the Python code raises a
`NameError` for the unbound loop variable; the embedding returns the empty
call list, a case no claim exercises.) -/
def fastaRun {α : Type} (zero : α) (batchSize : Nat)
    (records : List (Str × α)) :
    List (List α × List (Nat × Str)) :=
  let step := fun (st : List α × List (Nat × Str) ×
        List (List α × List (Nat × Str)))
      (p : Nat × Str × α) =>
    let i := p.1
    let ids := st.2.1 ++ [(i, p.2.1)]
    let bc :=
      if i ≠ 0 ∧ i % batchSize = 0 then
        (List.replicate batchSize zero, st.2.2 ++ [(st.1, ids)])
      else (st.1, st.2.2)
    (bc.1.set (i % batchSize) p.2.2, ids, bc.2)
  let fin := records.enum.foldl step (List.replicate batchSize zero, [], [])
  match records.length with
  | 0 => fin.2.2
  | n + 1 =>
      if n % batchSize ≠ 0 then
        fin.2.2 ++ [(fin.1.take (n % batchSize + 1), fin.2.1)]
      else fin.2.2

/-- C1: evaluating the FASTA prediction loop at concrete inputs shows the
claimed exactly-one-row-per-record property fails.  With batch size 2 and
three records, only one predict/report call happens: its batch holds the
first two encodings — the third record is never predicted — while its id
list holds all three identifiers, so ids and prediction rows are
misaligned and, with more records, identifiers repeat across flushes
(`batch_ids` is never cleared).  With a single record (any batch size
greater than 1), no call happens at all: the record is silently dropped. -/
theorem fasta_predictions_code_bug :
    fastaRun (0 : Nat) 2
        [("r0".data, 10), ("r1".data, 20), ("r2".data, 30)] =
      [([10, 20], [(0, "r0".data), (1, "r1".data), (2, "r2".data)])] ∧
    fastaRun (0 : Nat) 64 [("r0".data, 10)] = [] := by
  constructor
  · decide
  · decide

end Selene
